import Mathlib

/-!
Shallow embedding of the rust-blockchain node (waddaboo/rust-blockchain).

The data model and operations below are translated from the Rust sources:
`src/model/block.rs`, `src/model/blockchain.rs`, `src/model/transaction.rs`,
`src/model/transaction_pool.rs`, `src/miner.rs`, `src/peer.rs`.

The SHA-256 digest used by `Block::calculate_hash` is abstracted as a
function parameter `H : Block → Nat`; the source reduces the digest to a
256-bit unsigned integer, which we reflect by reducing `H` modulo `2 ^ 256`.
Machine integers (`u64` indices/nonces/amounts, the `U256` hash) are
modelled as `Nat`, timestamps (`i64`) as `Int`; no claim under scrutiny
depends on fixed-width overflow.
-/

namespace RustBlockchain

deriving instance DecidableEq for Except

/-- 32-byte account identifier (`src/model/address.rs`), modelled by its
numeric value; the well-known all-zero address is `0`. -/
abbrev Address : Type := Nat

/-- `Transaction` from `src/model/transaction.rs`. -/
structure Transaction where
  sender : Address
  recipient : Address
  amount : Nat
deriving DecidableEq

/-- `Block` from `src/model/block.rs`; `previous_hash` and `hash` are the
256-bit `BlockHash` values as natural numbers. -/
structure Block where
  index : Nat
  timestamp : Int
  nonce : Nat
  previous_hash : Nat
  hash : Nat
  transactions : List Transaction
deriving DecidableEq

/-- The modulus of the 256-bit `BlockHash` type. -/
def HASH_MOD : Nat := 2 ^ 256

/-- `BlockHash::MAX`. -/
def HASH_MAX : Nat := HASH_MOD - 1

/-- `Block::calculate_hash`: serialize the block with its `hash` field
zeroed and digest it; the digest `H` is abstract, reduced to 256 bits
exactly as `U256::from(byte_hash)` is. -/
def Block.calculate_hash (H : Block → Nat) (b : Block) : Nat :=
  H { b with hash := 0 } % HASH_MOD

/-- `Block::new`: the timestamp comes from the clock, here an explicit
parameter `ts`; the hash field is zeroed and then computed. -/
def Block.new (H : Block → Nat) (ts : Int) (index : Nat) (nonce : Nat)
    (previous_hash : Nat) (transactions : List Transaction) : Block :=
  let b : Block :=
    { index := index, timestamp := ts, nonce := nonce,
      previous_hash := previous_hash, hash := 0, transactions := transactions }
  { b with hash := Block.calculate_hash H b }

/-- Fuel-bounded binary length: `sizeAux fuel n` is the bit length of `n`
whenever `n < 2 ^ fuel`.  Used to model `U256::leading_zeros`. -/
def sizeAux : Nat → Nat → Nat
  | 0, _ => 0
  | fuel + 1, n => if n = 0 then 0 else sizeAux fuel (n / 2) + 1

/-- `U256::leading_zeros` for a 256-bit value `h`. -/
def leading_zeros (h : Nat) : Nat := 256 - sizeAux 256 h

/-- `BLOCK_SUBSIDY` from `src/model/blockchain.rs`. -/
def BLOCK_SUBSIDY : Nat := 100

/-- `AccountBalanceMapError`.  Modelled from the spec: the file
`src/model/account_balance_map.rs` is declared in `src/model.rs` but is
not present in the sources; §4.1 of the spec names the two failure modes
of `transfer`. -/
inductive AccountBalanceMapError where
  | senderAccountDoesNotExist
  | insufficientFunds
deriving DecidableEq

/-- `BlockchainError` from `src/model/blockchain.rs`. -/
inductive BlockchainError where
  | invalidIndex
  | invalidPreviousHash
  | invalidHash
  | invalidDifficulty
  | coinbaseTransactionNotFound
  | invalidCoinbaseAmount
deriving DecidableEq

/-- The dynamic `anyhow::Error` channel of `Blockchain::add_block`, which
carries either a `BlockchainError` or an `AccountBalanceMapError`; the
extra `indexOutOfBounds` constructor marks the Rust panic that indexing
`blocks[blocks.len() - 1]` would raise on an empty block list (shown
unreachable below). -/
inductive ChainError where
  | chain (e : BlockchainError)
  | balance (e : AccountBalanceMapError)
  | indexOutOfBounds
deriving DecidableEq

/-- `AccountBalanceMap`.  Modelled from the spec (§3, §4.1): the file
`src/model/account_balance_map.rs` is missing from the sources.  A map
Address → unsigned balance in which absent and zero entries are
distinguished (`transfer` fails when the sender has no existing entry),
represented as an association list. -/
abbrev AccountBalanceMap : Type := List (Address × Nat)

namespace AccountBalanceMap

/-- The empty map (`Default` in the source construction path). -/
def empty : AccountBalanceMap := []

/-- Balance lookup: `some b` iff the address has an entry. -/
def get_balance (m : AccountBalanceMap) (a : Address) : Option Nat :=
  (m.find? (fun p => p.1 = a)).map (fun p => p.2)

/-- Replace the balance of an address that has an entry, otherwise
append a new entry. -/
def set_amount (m : AccountBalanceMap) (a : Address) (v : Nat) : AccountBalanceMap :=
  match m with
  | [] => [(a, v)]
  | p :: rest => if p.1 = a then (a, v) :: rest else p :: set_amount rest a v

/-- Modelled from the spec (§4.1): `add_amount(address, amount)`
unconditionally credits `address`; no error condition. -/
def add_amount (m : AccountBalanceMap) (a : Address) (v : Nat) : AccountBalanceMap :=
  match get_balance m a with
  | some b => set_amount m a (b + v)
  | none => set_amount m a v

/-- Modelled from the spec (§4.1): `transfer(sender, recipient, amount)`
fails with `SenderAccountDoesNotExist` when the sender has no entry, with
`InsufficientFunds` when its balance is below `amount`, and otherwise
debits the sender and credits the recipient. -/
def transfer (m : AccountBalanceMap) (sender recipient : Address) (amount : Nat) :
    Except AccountBalanceMapError AccountBalanceMap :=
  match get_balance m sender with
  | none => .error .senderAccountDoesNotExist
  | some b =>
    if b < amount then .error .insufficientFunds
    else .ok (add_amount (set_amount m sender (b - amount)) recipient amount)

end AccountBalanceMap

/-- The `Blockchain` struct from `src/model/blockchain.rs`: the difficulty,
the synchronized block list and the synchronized balance snapshot (the
mutex wrappers dissolve in the sequential embedding). -/
structure Blockchain where
  difficulty : Nat
  blocks : List Block
  account_balances : AccountBalanceMap
deriving DecidableEq

namespace Blockchain

/-- `Blockchain::create_genesis_block`: `Block::new(0, 0, zero-hash, [])`
with the timestamp forced to `0` and the hash recomputed afterwards. -/
def create_genesis_block (H : Block → Nat) : Block :=
  let b := Block.new H 0 0 0 0 []
  { b with timestamp := 0, hash := Block.calculate_hash H { b with timestamp := 0 } }

/-- `Blockchain::new(difficulty)`: only the genesis block, empty balances. -/
def new (H : Block → Nat) (difficulty : Nat) : Blockchain :=
  { difficulty := difficulty,
    blocks := [create_genesis_block H],
    account_balances := AccountBalanceMap.empty }

/-- The `blocks[blocks.len() - 1]` read shared by `get_last_block` and
`add_block`; `none` when the list is empty (a Rust panic). -/
def last_block (c : Blockchain) : Option Block :=
  c.blocks[c.blocks.length - 1]?

/-- `Blockchain::get_last_block` (a copy of the tip). -/
def get_last_block (c : Blockchain) : Option Block := last_block c

/-- `Blockchain::get_all_blocks`. -/
def get_all_blocks (c : Blockchain) : List Block := c.blocks

/-- `Blockchain::process_coinbase`: the first transaction is the coinbase;
missing list → `CoinbaseTransactionNotFound`, wrong amount →
`InvalidCoinbaseAmount`, otherwise credit the recipient. -/
def process_coinbase (m : AccountBalanceMap) (coinbase : Option Transaction) :
    Except BlockchainError AccountBalanceMap :=
  match coinbase with
  | none => .error .coinbaseTransactionNotFound
  | some t =>
    if t.amount = BLOCK_SUBSIDY then .ok (AccountBalanceMap.add_amount m t.recipient t.amount)
    else .error .invalidCoinbaseAmount

/-- `Blockchain::process_transfers`: apply `transfer` to each remaining
transaction in list order, stopping at the first failure. -/
def process_transfers (m : AccountBalanceMap) :
    List Transaction → Except AccountBalanceMapError AccountBalanceMap
  | [] => .ok m
  | t :: rest =>
    match AccountBalanceMap.transfer m t.sender t.recipient t.amount with
    | .error e => .error e
    | .ok m1 => process_transfers m1 rest

/-- `Blockchain::calculate_new_account_balance`: work on a scratch copy of
the snapshot, coinbase first, then the transfers. -/
def calculate_new_account_balance (m : AccountBalanceMap) (transactions : List Transaction) :
    Except ChainError AccountBalanceMap :=
  match process_coinbase m transactions.head? with
  | .error e => .error (.chain e)
  | .ok m1 =>
    match process_transfers m1 transactions.tail with
    | .error e => .error (.balance e)
    | .ok m2 => .ok m2

/-- `Blockchain::udpate_account_balance` (source spelling): compute the
candidate balances into a scratch copy and assign them only on success.
Returns the error (if any) together with the post-state of the chain. -/
def udpate_account_balance (c : Blockchain) (transactions : List Transaction) :
    Option ChainError × Blockchain :=
  match calculate_new_account_balance c.account_balances transactions with
  | .error e => (some e, c)
  | .ok m => (none, { c with account_balances := m })

/-- `Blockchain::add_block`: the four structural checks in source order,
then the balance replay, then the push; each early `return` leaves the
state as it stood.  Returns the error (if any) and the post-state. -/
def add_block (H : Block → Nat) (c : Blockchain) (b : Block) :
    Option ChainError × Blockchain :=
  match last_block c with
  | none => (some .indexOutOfBounds, c)
  | some last =>
    if b.index ≠ last.index + 1 then (some (.chain .invalidIndex), c)
    else if b.previous_hash ≠ last.hash then (some (.chain .invalidPreviousHash), c)
    else if b.hash ≠ Block.calculate_hash H b then (some (.chain .invalidHash), c)
    else if leading_zeros b.hash < c.difficulty then (some (.chain .invalidDifficulty), c)
    else
      match udpate_account_balance c b.transactions with
      | (some e, c1) => (some e, c1)
      | (none, c1) => (none, { c1 with blocks := c1.blocks ++ [b] })

end Blockchain

/-- `TransactionVec` from `src/model/transaction_pool.rs`. -/
abbrev TransactionVec : Type := List Transaction

/-- `TransactionPool`: the synchronized buffer of pending transactions. -/
structure TransactionPool where
  transaction : TransactionVec
deriving DecidableEq

namespace TransactionPool

/-- `TransactionPool::new`: an empty buffer. -/
def new : TransactionPool := { transaction := [] }

/-- `TransactionPool::add_transaction`: push at the end of the buffer. -/
def add_transaction (p : TransactionPool) (t : Transaction) : TransactionPool :=
  { transaction := p.transaction ++ [t] }

/-- `TransactionPool::pop`: clone the buffer, clear it, return the clone
together with the cleared pool. -/
def pop (p : TransactionPool) : TransactionVec × TransactionPool :=
  (p.transaction, { transaction := [] })

end TransactionPool

/-- `MinerError` from `src/miner.rs`. -/
inductive MinerError where
  | blockNotMined (index : Nat)
deriving DecidableEq

/-- The `Miner` struct from `src/miner.rs` (the chain and pool handles are
passed explicitly where needed). -/
structure Miner where
  miner_address : Address
  max_blocks : Nat
  max_nonce : Nat
  target : Nat
deriving DecidableEq

namespace Miner

/-- `Miner::create_target`: `BlockHash::MAX >> difficulty`. -/
def create_target (difficulty : Nat) : Nat := HASH_MAX >>> difficulty

/-- `Miner::must_stop_mining`. -/
def must_stop_mining (m : Miner) (block_counter : Nat) : Bool :=
  m.max_blocks > 0 && block_counter ≥ m.max_blocks

/-- `Miner::create_coinbase_transaction`: zero-address sender, the
configured miner address, the fixed subsidy. -/
def create_coinbase_transaction (m : Miner) : Transaction :=
  { sender := 0, recipient := m.miner_address, amount := BLOCK_SUBSIDY }

/-- `Miner::create_next_block`: index one past the tip, the tip's hash as
`previous_hash`; `ts` is the clock reading of this `Block::new` call. -/
def create_next_block (m : Miner) (H : Block → Nat) (ts : Int) (last_block : Block)
    (transactions : TransactionVec) (nonce : Nat) : Block :=
  Block.new H ts (last_block.index + 1) nonce last_block.hash transactions

/-- The `for nonce in 0..max_nonce` search of `Miner::mine_block`:
`fuel` counts the nonces still to try, `nonce` is the next one; `ts n` is
the clock reading when nonce `n` is tried. -/
def mineAux (m : Miner) (H : Block → Nat) (ts : Nat → Int) (last_block : Block)
    (block_transactions : TransactionVec) : Nat → Nat → Option Block
  | 0, _ => none
  | fuel + 1, nonce =>
    let next_block := m.create_next_block H (ts nonce) last_block block_transactions nonce
    if next_block.hash < m.target then some next_block
    else mineAux m H ts last_block block_transactions fuel (nonce + 1)

/-- `Miner::mine_block`: prepend the self-generated coinbase to the drained
pool transactions and search nonces `0, 1, ..., max_nonce - 1`. -/
def mine_block (m : Miner) (H : Block → Nat) (ts : Nat → Int) (last_block : Block)
    (transactions : TransactionVec) : Option Block :=
  mineAux m H ts last_block (m.create_coinbase_transaction :: transactions) m.max_nonce 0

/-- One iteration of the `Miner::start` loop after a non-empty pool drain,
given the tip read by `get_last_block`: a found block is submitted via
`add_block` (whose outcome the loop propagates); exhaustion is the fatal
`BlockNotMined(tip.index + 1)`. -/
def mine_iteration (m : Miner) (H : Block → Nat) (ts : Nat → Int) (c : Blockchain)
    (last_block : Block) (transactions : TransactionVec) :
    Except MinerError (Option ChainError × Blockchain) :=
  match m.mine_block H ts last_block transactions with
  | some block => .ok (Blockchain.add_block H c block)
  | none => .error (.blockNotMined (last_block.index + 1))

end Miner

namespace Peer

/-- `Peer::get_new_blocks_from_peer`, given the local tip index and the
peer's full block list.  `none` models the panics the source catches with
`catch_unwind`: `peer_blocks.last().unwrap()` on an empty list and
`peer_blocks.get(first..=last).unwrap()` on an out-of-range slice. -/
def get_new_blocks_from_peer (last_index : Nat) (peer_blocks : List Block) :
    Option (List Block) :=
  match peer_blocks.getLast? with
  | none => none
  | some peer_last =>
    if peer_last.index ≤ last_index then some []
    else if peer_last.index < peer_blocks.length then
      some ((peer_blocks.drop (last_index + 1)).take (peer_last.index - last_index))
    else none

/-- `Peer::add_new_blocks`: submit each block via `add_block`, returning at
the first rejection (already-appended blocks stay committed). -/
def add_new_blocks (H : Block → Nat) (c : Blockchain) : List Block → Blockchain
  | [] => c
  | b :: rest =>
    match Blockchain.add_block H c b with
    | (some _, c1) => c1
    | (none, c1) => add_new_blocks H c1 rest

/-- All-or-nothing sequential append: the chain after submitting every
block of the list via `add_block`, or `none` if any is rejected.  Used to
characterise the committed prefix of `add_new_blocks`. -/
def add_seq (H : Block → Nat) (c : Blockchain) : List Block → Option Blockchain
  | [] => some c
  | b :: rest =>
    match Blockchain.add_block H c b with
    | (none, c1) => add_seq H c1 rest
    | (some _, _) => none

/-- The pull step of `Peer::try_receive_new_blocks` for one peer: fetch the
peer's blocks, compute the missing range, append it; a caught panic or an
empty range leaves the chain as is. -/
def sync_pull (H : Block → Nat) (c : Blockchain) (peer_blocks : List Block) : Blockchain :=
  match Blockchain.get_last_block c with
  | none => c
  | some local_last =>
    match get_new_blocks_from_peer local_last.index peer_blocks with
    | none => c
    | some [] => c
    | some new_blocks => add_new_blocks H c new_blocks

end Peer

/-- `add_block` succeeded starting from `c`, yielding `c'`. -/
def AddOk (H : Block → Nat) (c : Blockchain) (b : Block) (c' : Blockchain) : Prop :=
  Blockchain.add_block H c b = (none, c')

/-- Chain states reachable from `Blockchain::new(difficulty)` by
successful `add_block` calls. -/
inductive Reachable (H : Block → Nat) (d : Nat) : Blockchain → Prop where
  | base : Reachable H d (Blockchain.new H d)
  | step {c c' : Blockchain} {b : Block} :
      Reachable H d c → AddOk H c b c' → Reachable H d c'

/-- The per-link conditions `add_block` enforces between a parent and an
appended block. -/
def ext_ok (H : Block → Nat) (d : Nat) (prev b : Block) : Prop :=
  b.index = prev.index + 1 ∧ b.previous_hash = prev.hash ∧
    b.hash = Block.calculate_hash H b ∧ d ≤ leading_zeros b.hash

/-- Every block of the list extends its predecessor, starting from `p`. -/
def chain_ok_from (H : Block → Nat) (d : Nat) : Block → List Block → Prop
  | _, [] => True
  | p, b :: bs => ext_ok H d p b ∧ chain_ok_from H d b bs

/-- Structural well-formedness of a reachable chain state. -/
def chain_inv (H : Block → Nat) (d : Nat) (c : Blockchain) : Prop :=
  c.difficulty = d ∧
    ∃ rest, c.blocks = Blockchain.create_genesis_block H :: rest ∧
      chain_ok_from H d (Blockchain.create_genesis_block H) rest

/-! ### Concrete instances used to witness the theorems -/

/-- A concrete digest function for witnesses: every serialization hashes
to `0`. -/
def Hzero : Block → Nat := fun _ => 0

/-- A concrete clock for witnesses: always `0`. -/
def tsZero : Nat → Int := fun _ => 0

/-- A coinbase transaction paying the subsidy to `a`. -/
def coinbaseTo (a : Address) : Transaction :=
  { sender := 0, recipient := a, amount := BLOCK_SUBSIDY }

/-- A fresh difficulty-0 chain under the `Hzero` digest. -/
def chain0 : Blockchain := Blockchain.new Hzero 0

/-- A fresh chain with difficulty 257 (beyond the hash width). -/
def chain257 : Blockchain := Blockchain.new Hzero 257

/-- A valid first block on `chain0`: one coinbase to address 7. -/
def blk1 : Block :=
  { index := 1, timestamp := 0, nonce := 0, previous_hash := 0, hash := 0,
    transactions := [coinbaseTo 7] }

/-- The state of `chain0` after appending `blk1`. -/
def chain1 : Blockchain :=
  { difficulty := 0,
    blocks := [Blockchain.create_genesis_block Hzero, blk1],
    account_balances := [(7, 100)] }

/-- A valid second block: one coinbase to address 7. -/
def blk2 : Block :=
  { index := 2, timestamp := 0, nonce := 1, previous_hash := 0, hash := 0,
    transactions := [coinbaseTo 7] }

/-- An invalid second block: empty transaction list (no coinbase). -/
def blkBad2 : Block :=
  { index := 2, timestamp := 0, nonce := 0, previous_hash := 0, hash := 0,
    transactions := [] }

/-- A candidate whose 256-bit hash is all zeros (and whose structural
fields chain correctly onto the genesis block of `chain257`). -/
def blkZ : Block :=
  { index := 1, timestamp := 0, nonce := 0, previous_hash := 0, hash := 0,
    transactions := [] }

/-- A digest function whose every output has zero leading zero bits. -/
def H255 : Block → Nat := fun _ => 2 ^ 255

/-- A difficulty-10 chain under the `H255` digest. -/
def chainD : Blockchain := Blockchain.new H255 10

/-- The state of `chain0` after appending `blk1` and then `blk2`. -/
def chain2 : Blockchain :=
  { difficulty := 0,
    blocks := [Blockchain.create_genesis_block Hzero, blk1, blk2],
    account_balances := [(7, 200)] }

/-- A miner with one nonce to try against the difficulty-0 target. -/
def minerW : Miner :=
  { miner_address := 7, max_blocks := 1, max_nonce := 1,
    target := Miner.create_target 0 }

/-- A miner with an empty nonce range (always exhausts). -/
def minerE : Miner :=
  { miner_address := 7, max_blocks := 1, max_nonce := 0,
    target := Miner.create_target 0 }

/-! ### Bit-length arithmetic for `leading_zeros` and `create_target` -/

theorem sizeAux_le {fuel n k : Nat} (h : n < 2 ^ k) : sizeAux fuel n ≤ k := by
  induction fuel generalizing n k with
  | zero => simp [sizeAux]
  | succ fuel ih =>
    by_cases hn : n = 0
    · simp [sizeAux, hn]
    · have hk : k ≠ 0 := by
        rintro rfl
        simp at h
        omega
      have hdiv : n / 2 < 2 ^ (k - 1) := by
        rw [Nat.div_lt_iff_lt_mul (by omega)]
        have : 2 ^ (k - 1) * 2 = 2 ^ k := by
          rw [← pow_succ]
          congr 1
          omega
        omega
      have := ih hdiv
      simp only [sizeAux, hn, if_false]
      omega

theorem lt_two_pow_sizeAux {fuel n : Nat} (h : n < 2 ^ fuel) :
    n < 2 ^ sizeAux fuel n := by
  induction fuel generalizing n with
  | zero =>
    simp at h
    simp [sizeAux, h]
  | succ fuel ih =>
    by_cases hn : n = 0
    · simp [sizeAux, hn]
    · have hdiv : n / 2 < 2 ^ fuel := by
        rw [Nat.div_lt_iff_lt_mul (by omega)]
        have : 2 ^ fuel * 2 = 2 ^ (fuel + 1) := by rw [← pow_succ]
        omega
      have hih := ih hdiv
      simp only [sizeAux, hn, if_false]
      have hsplit : n = 2 * (n / 2) + n % 2 := (Nat.div_add_mod n 2).symm ▸ by omega
      have hmod : n % 2 < 2 := Nat.mod_lt _ (by omega)
      have hpow : 2 ^ (sizeAux fuel (n / 2) + 1) = 2 * 2 ^ sizeAux fuel (n / 2) := by
        rw [pow_succ]
        ring
      omega

theorem sizeAux_two_pow_sub_one {k : Nat} (hk : k ≤ 256) :
    sizeAux 256 (2 ^ k - 1) = k := by
  have h1 : sizeAux 256 (2 ^ k - 1) ≤ k :=
    sizeAux_le (by have : 0 < 2 ^ k := Nat.pos_pow_of_pos k (by omega); omega)
  have hlt : 2 ^ k - 1 < 2 ^ 256 := by
    have : 2 ^ k ≤ 2 ^ 256 := Nat.pow_le_pow_right (by omega) hk
    have : 0 < 2 ^ k := Nat.pos_pow_of_pos k (by omega)
    omega
  have h2 := lt_two_pow_sizeAux hlt
  have h3 : 2 ^ k ≤ 2 ^ sizeAux 256 (2 ^ k - 1) := by
    have : 0 < 2 ^ k := Nat.pos_pow_of_pos k (by omega)
    omega
  have h4 : k ≤ sizeAux 256 (2 ^ k - 1) :=
    (Nat.pow_le_pow_iff_right (by omega)).mp h3
  omega

theorem sizeAux_zero (fuel : Nat) : sizeAux fuel 0 = 0 := by
  cases fuel <;> simp [sizeAux]

theorem leading_zeros_le (h : Nat) : leading_zeros h ≤ 256 := by
  unfold leading_zeros
  omega

theorem le_leading_zeros {h k : Nat} (hk : k ≤ 256) (hlt : h < 2 ^ (256 - k)) :
    k ≤ leading_zeros h := by
  have : sizeAux 256 h ≤ 256 - k := sizeAux_le hlt
  unfold leading_zeros
  omega

theorem create_target_eq {d : Nat} (hd : d ≤ 256) :
    Miner.create_target d = 2 ^ (256 - d) - 1 := by
  unfold Miner.create_target HASH_MAX HASH_MOD
  rw [Nat.shiftRight_eq_div_pow]
  have hmul : 2 ^ (256 - d) * 2 ^ d = 2 ^ 256 := by
    rw [← pow_add]
    congr 1
    omega
  have hdp : 0 < 2 ^ d := Nat.pos_pow_of_pos d (by omega)
  have hbp : 0 < 2 ^ (256 - d) := Nat.pos_pow_of_pos _ (by omega)
  apply Nat.div_eq_of_lt_le
  · calc (2 ^ (256 - d) - 1) * 2 ^ d = 2 ^ (256 - d) * 2 ^ d - 1 * 2 ^ d := by
          rw [Nat.sub_mul]
    _ ≤ 2 ^ 256 - 1 := by omega
  · have h1 : 2 ^ (256 - d) - 1 + 1 = 2 ^ (256 - d) := by omega
    rw [h1, hmul]
    omega

theorem create_target_eq_zero {d : Nat} (hd : 256 < d) :
    Miner.create_target d = 0 := by
  unfold Miner.create_target HASH_MAX HASH_MOD
  rw [Nat.shiftRight_eq_div_pow]
  apply Nat.div_eq_of_lt
  have : 2 ^ 256 ≤ 2 ^ d := Nat.pow_le_pow_right (by omega) (by omega)
  omega

/-- C8: for every difficulty `d ≤ 256` the target `hash_max >> d` has
exactly `d` leading zero bits, and for every `d > 256` the leading-zero
count of the computed target saturates at 256, the hash bit-width. -/
theorem spec_c8_target_leading_zeros (d : Nat) :
    (d ≤ 256 → leading_zeros (Miner.create_target d) = d) ∧
      (256 < d → leading_zeros (Miner.create_target d) = 256) := by
  constructor
  · intro hd
    rw [create_target_eq hd]
    unfold leading_zeros
    rw [sizeAux_two_pow_sub_one (by omega)]
    omega
  · intro hd
    rw [create_target_eq_zero hd]
    unfold leading_zeros
    rw [sizeAux_zero]

/-- Witness for C8 at the in-range difficulty 3 and the out-of-range
difficulty 300. -/
theorem spec_c8_target_leading_zeros_witness :
    leading_zeros (Miner.create_target 3) = 3 ∧
      leading_zeros (Miner.create_target 300) = 256 :=
  ⟨(spec_c8_target_leading_zeros 3).1 (by omega),
   (spec_c8_target_leading_zeros 300).2 (by omega)⟩

/-! ### Case analysis of `add_block` -/

theorem process_coinbase_error_cases {m : AccountBalanceMap} {ob : Option Transaction}
    {e : BlockchainError} (h : Blockchain.process_coinbase m ob = .error e) :
    e = .coinbaseTransactionNotFound ∨ e = .invalidCoinbaseAmount := by
  cases ob with
  | none =>
    left
    simp [Blockchain.process_coinbase] at h
    exact h.symm
  | some t =>
    simp only [Blockchain.process_coinbase] at h
    split at h
    · cases h
    · right
      cases h
      rfl

theorem calculate_error_cases {m : AccountBalanceMap} {txs : List Transaction}
    {e : ChainError}
    (h : Blockchain.calculate_new_account_balance m txs = .error e) :
    (∃ e1, e = .chain e1 ∧
        (e1 = .coinbaseTransactionNotFound ∨ e1 = .invalidCoinbaseAmount)) ∨
      ∃ e2, e = .balance e2 := by
  simp only [Blockchain.calculate_new_account_balance] at h
  split at h
  · cases h
    rename_i e1 heq
    exact .inl ⟨e1, rfl, process_coinbase_error_cases heq⟩
  · split at h
    · cases h
      rename_i e2 _
      exact .inr ⟨e2, rfl⟩
    · cases h

theorem add_block_cases (H : Block → Nat) (c : Blockchain) (b : Block) :
    (Blockchain.add_block H c b).2 = c ∨ (Blockchain.add_block H c b).1 = none := by
  unfold Blockchain.add_block Blockchain.udpate_account_balance
  cases hlb : Blockchain.last_block c with
  | none => simp
  | some last =>
    simp only
    split_ifs
    · exact .inl rfl
    · exact .inl rfl
    · exact .inl rfl
    · exact .inl rfl
    · cases hcb : Blockchain.calculate_new_account_balance c.account_balances b.transactions
      · simp [hcb]
      · simp [hcb]

/-- C3: whenever `add_block` returns an error — validation or ledger —
the chain state is untouched: same block list, same balance snapshot. -/
theorem spec_c3_error_preserves_state (H : Block → Nat) (c : Blockchain) (b : Block)
    (e : ChainError) (h : (Blockchain.add_block H c b).1 = some e) :
    (Blockchain.add_block H c b).2 = c ∧
      (Blockchain.add_block H c b).2.blocks = c.blocks ∧
      (Blockchain.add_block H c b).2.account_balances = c.account_balances := by
  rcases add_block_cases H c b with h2 | h2
  · exact ⟨h2, by rw [h2], by rw [h2]⟩
  · rw [h2] at h
    cases h

/-- Witness for C3: a block with a wrong coinbase amount is rejected and
`chain0` is returned unchanged. -/
theorem spec_c3_error_preserves_state_witness :
    (Blockchain.add_block Hzero chain0
        { index := 1, timestamp := 0, nonce := 0, previous_hash := 0, hash := 0,
          transactions := [{ sender := 0, recipient := 7, amount := 5 }] }).2 = chain0 ∧
      (Blockchain.add_block Hzero chain0
        { index := 1, timestamp := 0, nonce := 0, previous_hash := 0, hash := 0,
          transactions := [{ sender := 0, recipient := 7, amount := 5 }] }).2.blocks
        = chain0.blocks ∧
      (Blockchain.add_block Hzero chain0
        { index := 1, timestamp := 0, nonce := 0, previous_hash := 0, hash := 0,
          transactions := [{ sender := 0, recipient := 7, amount := 5 }] }).2.account_balances
        = chain0.account_balances :=
  spec_c3_error_preserves_state Hzero chain0
    { index := 1, timestamp := 0, nonce := 0, previous_hash := 0, hash := 0,
      transactions := [{ sender := 0, recipient := 7, amount := 5 }] }
    (.chain .invalidCoinbaseAmount) (by decide)

/-- C5 fails on the code: on a chain with difficulty 257 the difficulty
check is not clamped — the all-zero-hash candidate `blkZ`, which passes
the index, previous-hash and hash checks, is still rejected with
`InvalidDifficulty` because `leading_zeros` saturates at 256 < 257. -/
theorem spec_c5_cex :
    256 < chain257.difficulty ∧ blkZ.hash = 0 ∧
      blkZ.index = 1 ∧ blkZ.previous_hash = 0 ∧
      blkZ.hash = Block.calculate_hash Hzero blkZ ∧
      leading_zeros blkZ.hash = 256 ∧
      (Blockchain.add_block Hzero chain257 blkZ).1
        = some (.chain .invalidDifficulty) := by
  decide

/-- C5 amended: for a chain whose difficulty exceeds the hash width 256,
the difficulty check rejects every candidate reaching it — even one whose
hash is all zeros — with `InvalidDifficulty`, since the leading-zero
count saturates at 256, which is below the configured difficulty. -/
theorem spec_c5_overflow_difficulty_rejects (H : Block → Nat) (c : Blockchain)
    (b : Block) (last : Block) (hd : 256 < c.difficulty)
    (hlast : Blockchain.last_block c = some last)
    (h1 : b.index = last.index + 1) (h2 : b.previous_hash = last.hash)
    (h3 : b.hash = Block.calculate_hash H b) :
    Blockchain.add_block H c b = (some (.chain .invalidDifficulty), c) := by
  have hlz : leading_zeros (Block.calculate_hash H b) < c.difficulty := by
    have := leading_zeros_le (Block.calculate_hash H b)
    omega
  unfold Blockchain.add_block
  rw [hlast]
  simp [h1, h2, h3, hlz]

/-- Witness for the amended C5: `blkZ` on `chain257`. -/
theorem spec_c5_overflow_difficulty_rejects_witness :
    Blockchain.add_block Hzero chain257 blkZ
      = (some (.chain .invalidDifficulty), chain257) :=
  spec_c5_overflow_difficulty_rejects Hzero chain257 blkZ
    (Blockchain.create_genesis_block Hzero)
    (by decide) (by decide) (by decide) (by decide) (by decide)

theorem process_transfers_append (m : AccountBalanceMap) (l1 l2 : List Transaction) :
    Blockchain.process_transfers m (l1 ++ l2) =
      match Blockchain.process_transfers m l1 with
      | .error e => .error e
      | .ok m1 => Blockchain.process_transfers m1 l2 := by
  induction l1 generalizing m with
  | nil => simp [Blockchain.process_transfers]
  | cons t ts ih =>
    simp only [List.cons_append, Blockchain.process_transfers]
    cases htr : AccountBalanceMap.transfer m t.sender t.recipient t.amount with
    | error e => rfl
    | ok m1 => exact ih m1

/-- C2: `add_block` applies its checks in a fixed order — index,
previous hash, hash integrity, difficulty, coinbase presence, coinbase
amount, then the transfers in list order — and the first failing check
determines the returned error, short-circuiting all later checks. -/
theorem spec_c2_validation_order (H : Block → Nat) (c : Blockchain) (b : Block)
    (last : Block) (hlast : Blockchain.last_block c = some last) :
    (b.index ≠ last.index + 1 →
       Blockchain.add_block H c b = (some (.chain .invalidIndex), c)) ∧
    (b.index = last.index + 1 → b.previous_hash ≠ last.hash →
       Blockchain.add_block H c b = (some (.chain .invalidPreviousHash), c)) ∧
    (b.index = last.index + 1 → b.previous_hash = last.hash →
       b.hash ≠ Block.calculate_hash H b →
       Blockchain.add_block H c b = (some (.chain .invalidHash), c)) ∧
    (b.index = last.index + 1 → b.previous_hash = last.hash →
       b.hash = Block.calculate_hash H b →
       leading_zeros b.hash < c.difficulty →
       Blockchain.add_block H c b = (some (.chain .invalidDifficulty), c)) ∧
    (b.index = last.index + 1 → b.previous_hash = last.hash →
       b.hash = Block.calculate_hash H b →
       c.difficulty ≤ leading_zeros b.hash →
       b.transactions = [] →
       Blockchain.add_block H c b = (some (.chain .coinbaseTransactionNotFound), c)) ∧
    (∀ t rest, b.index = last.index + 1 → b.previous_hash = last.hash →
       b.hash = Block.calculate_hash H b →
       c.difficulty ≤ leading_zeros b.hash →
       b.transactions = t :: rest →
       t.amount ≠ BLOCK_SUBSIDY →
       Blockchain.add_block H c b = (some (.chain .invalidCoinbaseAmount), c)) ∧
    (∀ t pfx u suffix m1 e, b.index = last.index + 1 → b.previous_hash = last.hash →
       b.hash = Block.calculate_hash H b →
       c.difficulty ≤ leading_zeros b.hash →
       b.transactions = t :: (pfx ++ u :: suffix) →
       t.amount = BLOCK_SUBSIDY →
       Blockchain.process_transfers
         (AccountBalanceMap.add_amount c.account_balances t.recipient t.amount) pfx
         = .ok m1 →
       AccountBalanceMap.transfer m1 u.sender u.recipient u.amount = .error e →
       Blockchain.add_block H c b = (some (.balance e), c)) := by
  refine ⟨?_, ?_, ?_, ?_, ?_, ?_, ?_⟩
  · intro h1
    unfold Blockchain.add_block
    rw [hlast]
    simp [h1]
  · intro h1 h2
    unfold Blockchain.add_block
    rw [hlast]
    simp [h1, h2]
  · intro h1 h2 h3
    unfold Blockchain.add_block
    rw [hlast]
    simp [h1, h2, h3]
  · intro h1 h2 h3 h4
    have h3' : leading_zeros (Block.calculate_hash H b) < c.difficulty := by
      rw [← h3]; exact h4
    unfold Blockchain.add_block
    rw [hlast]
    simp [h1, h2, h3, h3']
  · intro h1 h2 h3 h4 h5
    have h4' : ¬ leading_zeros (Block.calculate_hash H b) < c.difficulty := by
      rw [← h3]; omega
    unfold Blockchain.add_block Blockchain.udpate_account_balance
      Blockchain.calculate_new_account_balance
    rw [hlast]
    simp [h1, h2, h3, h4', h5, Blockchain.process_coinbase]
  · intro t rest h1 h2 h3 h4 h5 h6
    have h4' : ¬ leading_zeros (Block.calculate_hash H b) < c.difficulty := by
      rw [← h3]; omega
    unfold Blockchain.add_block Blockchain.udpate_account_balance
      Blockchain.calculate_new_account_balance
    rw [hlast]
    simp [h1, h2, h3, h4', h5, Blockchain.process_coinbase, h6]
  · intro t pfx u suffix m1 e h1 h2 h3 h4 h5 h6 h7 h8
    have h4' : ¬ leading_zeros (Block.calculate_hash H b) < c.difficulty := by
      rw [← h3]; omega
    unfold Blockchain.add_block Blockchain.udpate_account_balance
      Blockchain.calculate_new_account_balance
    rw [hlast]
    have hpt : Blockchain.process_transfers
        (AccountBalanceMap.add_amount c.account_balances t.recipient t.amount)
        (pfx ++ u :: suffix) = .error e := by
      rw [process_transfers_append, h7]
      simp [Blockchain.process_transfers, h8]
    rw [h6] at hpt
    simp [h1, h2, h3, h4', h5, Blockchain.process_coinbase, h6, hpt]

set_option maxRecDepth 4000 in
/-- Witness for C2: each of the seven failure modes hit at a concrete
chain state and candidate, in check order. -/
theorem spec_c2_validation_order_witness :
    (Blockchain.add_block Hzero chain0
        { index := 2, timestamp := 0, nonce := 0, previous_hash := 0, hash := 0,
          transactions := [] } = (some (.chain .invalidIndex), chain0)) ∧
    (Blockchain.add_block Hzero chain0
        { index := 1, timestamp := 0, nonce := 0, previous_hash := 1, hash := 0,
          transactions := [] } = (some (.chain .invalidPreviousHash), chain0)) ∧
    (Blockchain.add_block Hzero chain0
        { index := 1, timestamp := 0, nonce := 0, previous_hash := 0, hash := 5,
          transactions := [] } = (some (.chain .invalidHash), chain0)) ∧
    (Blockchain.add_block H255 chainD
        { index := 1, timestamp := 0, nonce := 0, previous_hash := 2 ^ 255,
          hash := 2 ^ 255, transactions := [] }
        = (some (.chain .invalidDifficulty), chainD)) ∧
    (Blockchain.add_block Hzero chain0 blkZ
        = (some (.chain .coinbaseTransactionNotFound), chain0)) ∧
    (Blockchain.add_block Hzero chain0
        { index := 1, timestamp := 0, nonce := 0, previous_hash := 0, hash := 0,
          transactions := [{ sender := 0, recipient := 7, amount := 5 }] }
        = (some (.chain .invalidCoinbaseAmount), chain0)) ∧
    (Blockchain.add_block Hzero chain0
        { index := 1, timestamp := 0, nonce := 0, previous_hash := 0, hash := 0,
          transactions := [coinbaseTo 7, { sender := 9, recipient := 7, amount := 1 }] }
        = (some (.balance .senderAccountDoesNotExist), chain0)) := by
  refine ⟨?_, ?_, ?_, ?_, ?_, ?_, ?_⟩
  · exact (spec_c2_validation_order Hzero chain0
      { index := 2, timestamp := 0, nonce := 0, previous_hash := 0, hash := 0,
        transactions := [] }
      (Blockchain.create_genesis_block Hzero) (by decide)).1 (by decide)
  · exact (spec_c2_validation_order Hzero chain0
      { index := 1, timestamp := 0, nonce := 0, previous_hash := 1, hash := 0,
        transactions := [] }
      (Blockchain.create_genesis_block Hzero) (by decide)).2.1 (by decide) (by decide)
  · exact (spec_c2_validation_order Hzero chain0
      { index := 1, timestamp := 0, nonce := 0, previous_hash := 0, hash := 5,
        transactions := [] }
      (Blockchain.create_genesis_block Hzero) (by decide)).2.2.1 (by decide)
      (by decide) (by decide)
  · exact (spec_c2_validation_order H255 chainD
      { index := 1, timestamp := 0, nonce := 0, previous_hash := 2 ^ 255,
        hash := 2 ^ 255, transactions := [] }
      (Blockchain.create_genesis_block H255) (by decide)).2.2.2.1 (by decide)
      (by decide) (by decide) (by decide)
  · exact (spec_c2_validation_order Hzero chain0 blkZ
      (Blockchain.create_genesis_block Hzero) (by decide)).2.2.2.2.1 (by decide)
      (by decide) (by decide) (by decide) (by decide)
  · exact (spec_c2_validation_order Hzero chain0
      { index := 1, timestamp := 0, nonce := 0, previous_hash := 0, hash := 0,
        transactions := [{ sender := 0, recipient := 7, amount := 5 }] }
      (Blockchain.create_genesis_block Hzero) (by decide)).2.2.2.2.2.1
      { sender := 0, recipient := 7, amount := 5 } [] (by decide) (by decide)
      (by decide) (by decide) (by decide) (by decide)
  · exact (spec_c2_validation_order Hzero chain0
      { index := 1, timestamp := 0, nonce := 0, previous_hash := 0, hash := 0,
        transactions := [coinbaseTo 7, { sender := 9, recipient := 7, amount := 1 }] }
      (Blockchain.create_genesis_block Hzero) (by decide)).2.2.2.2.2.2
      (coinbaseTo 7) [] { sender := 9, recipient := 7, amount := 1 } [] [(7, 100)]
      .senderAccountDoesNotExist (by decide) (by decide) (by decide) (by decide)
      (by decide) (by decide) (by decide) (by decide)

/-! ### Transaction pool -/

theorem pool_foldl_add (q : TransactionPool) (txs : List Transaction) :
    (txs.foldl TransactionPool.add_transaction q).transaction = q.transaction ++ txs := by
  induction txs generalizing q with
  | nil => simp
  | cons t ts ih =>
    simp only [List.foldl_cons]
    rw [ih]
    simp [TransactionPool.add_transaction]

/-- C9: after any sequence of `add_transaction` calls since the previous
`pop` (or since construction), `pop` returns exactly those transactions in
insertion order and leaves the pool empty, so an immediately following
`pop` returns the empty list. -/
theorem spec_c9_pop_drains (p : TransactionPool) (txs : List Transaction) :
    (TransactionPool.pop (txs.foldl TransactionPool.add_transaction (TransactionPool.pop p).2)).1
      = txs ∧
    (TransactionPool.pop (txs.foldl TransactionPool.add_transaction TransactionPool.new)).1
      = txs ∧
    (TransactionPool.pop (txs.foldl TransactionPool.add_transaction (TransactionPool.pop p).2)).2
      = TransactionPool.new ∧
    (TransactionPool.pop
        ((TransactionPool.pop
          (txs.foldl TransactionPool.add_transaction (TransactionPool.pop p).2)).2)).1
      = [] := by
  refine ⟨?_, ?_, rfl, rfl⟩
  · show (txs.foldl TransactionPool.add_transaction (TransactionPool.pop p).2).transaction = txs
    rw [pool_foldl_add]
    rfl
  · show (txs.foldl TransactionPool.add_transaction TransactionPool.new).transaction = txs
    rw [pool_foldl_add]
    rfl

/-! ### Miner -/

theorem mineAux_eq_some {m : Miner} {H : Block → Nat} {ts : Nat → Int} {last : Block}
    {bt : TransactionVec} {fuel start : Nat} {b : Block}
    (h : Miner.mineAux m H ts last bt fuel start = some b) :
    ∃ k, start ≤ k ∧ k < start + fuel ∧
      b = m.create_next_block H (ts k) last bt k ∧ b.hash < m.target ∧
      ∀ j, start ≤ j → j < k →
        ¬ (m.create_next_block H (ts j) last bt j).hash < m.target := by
  induction fuel generalizing start with
  | zero => simp [Miner.mineAux] at h
  | succ fuel ih =>
    simp only [Miner.mineAux] at h
    split at h
    · rename_i hlt
      cases h
      exact ⟨start, le_refl _, by omega, rfl, hlt, fun j hj1 hj2 => by omega⟩
    · rename_i hge
      obtain ⟨k, hk1, hk2, hk3, hk4, hk5⟩ := ih h
      refine ⟨k, by omega, by omega, hk3, hk4, ?_⟩
      intro j hj1 hj2
      rcases Nat.eq_or_lt_of_le hj1 with rfl | hgt
      · exact hge
      · exact hk5 j hgt hj2

theorem mineAux_eq_none {m : Miner} {H : Block → Nat} {ts : Nat → Int} {last : Block}
    {bt : TransactionVec} {fuel start : Nat} :
    Miner.mineAux m H ts last bt fuel start = none ↔
      ∀ j, start ≤ j → j < start + fuel →
        ¬ (m.create_next_block H (ts j) last bt j).hash < m.target := by
  induction fuel generalizing start with
  | zero =>
    simp only [Miner.mineAux]
    constructor
    · intro _ j hj1 hj2
      omega
    · intro _
      trivial
  | succ fuel ih =>
    simp only [Miner.mineAux]
    split
    · rename_i hlt
      constructor
      · intro h
        cases h
      · intro h
        exact absurd hlt (h start (le_refl _) (by omega))
    · rename_i hge
      rw [ih]
      constructor
      · intro h j hj1 hj2
        rcases Nat.eq_or_lt_of_le hj1 with rfl | hgt
        · exact hge
        · exact h j hgt (by omega)
      · intro h j hj1 hj2
        exact h j (by omega) (by omega)

theorem create_next_block_fields (m : Miner) (H : Block → Nat) (ts : Int) (last : Block)
    (bt : TransactionVec) (nonce : Nat) :
    (m.create_next_block H ts last bt nonce).index = last.index + 1 ∧
      (m.create_next_block H ts last bt nonce).previous_hash = last.hash ∧
      (m.create_next_block H ts last bt nonce).transactions = bt ∧
      (m.create_next_block H ts last bt nonce).nonce = nonce := by
  simp [Miner.create_next_block, Block.new]

/-- C6: `mine_block` builds the candidate list as the self-generated
coinbase (zero sender, configured miner address, fixed subsidy) followed
by the drained transactions in order, tries nonces `0 .. max_nonce`
(exclusive) in ascending order, returns the block of the first passing
nonce (with `index = tip.index + 1`, `previous_hash = tip.hash`), and on
exhaustion returns nothing, which makes the mining loop terminate with
the fatal `BlockNotMined(tip.index + 1)` error. -/
theorem spec_c6_mine_block (m : Miner) (H : Block → Nat) (ts : Nat → Int)
    (last : Block) (txs : TransactionVec) :
    (∀ b, m.mine_block H ts last txs = some b →
      b.transactions = m.create_coinbase_transaction :: txs ∧
      m.create_coinbase_transaction
        = { sender := 0, recipient := m.miner_address, amount := BLOCK_SUBSIDY } ∧
      b.index = last.index + 1 ∧ b.previous_hash = last.hash ∧ b.hash < m.target ∧
      ∃ nonce, nonce < m.max_nonce ∧ b.nonce = nonce ∧
        b = m.create_next_block H (ts nonce) last
              (m.create_coinbase_transaction :: txs) nonce ∧
        ∀ j, j < nonce →
          ¬ (m.create_next_block H (ts j) last
              (m.create_coinbase_transaction :: txs) j).hash < m.target) ∧
    (m.mine_block H ts last txs = none ↔
      ∀ j, j < m.max_nonce →
        ¬ (m.create_next_block H (ts j) last
            (m.create_coinbase_transaction :: txs) j).hash < m.target) ∧
    (∀ c, m.mine_block H ts last txs = none →
      m.mine_iteration H ts c last txs = .error (.blockNotMined (last.index + 1))) := by
  refine ⟨?_, ?_, ?_⟩
  · intro b hb
    obtain ⟨k, hk1, hk2, hk3, hk4, hk5⟩ := mineAux_eq_some hb
    obtain ⟨hf1, hf2, hf3, hf4⟩ :=
      create_next_block_fields m H (ts k) last (m.create_coinbase_transaction :: txs) k
    refine ⟨by rw [hk3]; exact hf3, rfl, by rw [hk3]; exact hf1, by rw [hk3]; exact hf2,
      hk4, k, by omega, by rw [hk3]; exact hf4, hk3, ?_⟩
    intro j hj
    exact hk5 j (by omega) hj
  · unfold Miner.mine_block
    rw [mineAux_eq_none]
    constructor
    · intro h j hj
      exact h j (by omega) (by omega)
    · intro h j hj1 hj2
      exact h j (by omega)
  · intro c hnone
    unfold Miner.mine_iteration
    rw [hnone]

/-- Witness for C6: a one-nonce miner at difficulty 0 finds `blk1`
immediately; a zero-nonce miner exhausts and the loop iteration reports
`BlockNotMined(1)`. -/
theorem spec_c6_mine_block_witness :
    (blk1.transactions = minerW.create_coinbase_transaction :: [] ∧
      minerW.create_coinbase_transaction
        = { sender := 0, recipient := minerW.miner_address, amount := BLOCK_SUBSIDY } ∧
      blk1.index = (Blockchain.create_genesis_block Hzero).index + 1 ∧
      blk1.previous_hash = (Blockchain.create_genesis_block Hzero).hash ∧
      blk1.hash < minerW.target ∧
      ∃ nonce, nonce < minerW.max_nonce ∧ blk1.nonce = nonce ∧
        blk1 = minerW.create_next_block Hzero (tsZero nonce)
                 (Blockchain.create_genesis_block Hzero)
                 (minerW.create_coinbase_transaction :: []) nonce ∧
        ∀ j, j < nonce →
          ¬ (minerW.create_next_block Hzero (tsZero j)
              (Blockchain.create_genesis_block Hzero)
              (minerW.create_coinbase_transaction :: []) j).hash < minerW.target) ∧
    minerE.mine_iteration Hzero tsZero chain0 (Blockchain.create_genesis_block Hzero) []
      = .error (.blockNotMined 1) :=
  ⟨(spec_c6_mine_block minerW Hzero tsZero (Blockchain.create_genesis_block Hzero) []).1
      blk1 (by decide),
   (spec_c6_mine_block minerE Hzero tsZero (Blockchain.create_genesis_block Hzero) []).2.2
      chain0 (by decide)⟩

/-! ### Which errors `add_block` can produce, and when -/

theorem add_block_error_mem {H : Block → Nat} {c : Blockchain} {b : Block} {e : ChainError}
    (h : (Blockchain.add_block H c b).1 = some e) :
    (e = .indexOutOfBounds ∧ Blockchain.last_block c = none) ∨
      e = .chain .invalidIndex ∨ e = .chain .invalidPreviousHash ∨
      e = .chain .invalidHash ∨
      (e = .chain .invalidDifficulty ∧ leading_zeros b.hash < c.difficulty) ∨
      e = .chain .coinbaseTransactionNotFound ∨ e = .chain .invalidCoinbaseAmount ∨
      ∃ e2, e = .balance e2 := by
  unfold Blockchain.add_block at h
  cases hlb : Blockchain.last_block c with
  | none =>
    rw [hlb] at h
    simp at h
    subst h
    exact .inl ⟨rfl, rfl⟩
  | some last =>
    rw [hlb] at h
    by_cases h1 : b.index = last.index + 1
    · by_cases h2 : b.previous_hash = last.hash
      · by_cases h3 : b.hash = Block.calculate_hash H b
        · by_cases h4 : leading_zeros b.hash < c.difficulty
          · have h4c : leading_zeros (Block.calculate_hash H b) < c.difficulty := by
              rw [← h3]; exact h4
            simp only [h1, h2, h3, ne_eq, not_true_eq_false, if_false, h4c, if_true] at h
            simp at h
            subst h
            exact .inr (.inr (.inr (.inr (.inl ⟨rfl, h4⟩))))
          · have h4c : ¬ leading_zeros (Block.calculate_hash H b) < c.difficulty := by
              rw [← h3]; exact h4
            simp only [h1, h2, h3, ne_eq, not_true_eq_false, if_false, h4c] at h
            unfold Blockchain.udpate_account_balance at h
            cases hcb : Blockchain.calculate_new_account_balance
                c.account_balances b.transactions with
            | error e1 =>
              rw [hcb] at h
              simp at h
              rcases calculate_error_cases hcb with ⟨e1', he1, hcase⟩ | ⟨e2, he2⟩
              · rcases hcase with rfl | rfl
                · subst he1
                  subst h
                  exact .inr (.inr (.inr (.inr (.inr (.inl rfl)))))
                · subst he1
                  subst h
                  exact .inr (.inr (.inr (.inr (.inr (.inr (.inl rfl))))))
              · subst he2
                subst h
                exact .inr (.inr (.inr (.inr (.inr (.inr (.inr ⟨e2, rfl⟩))))))
            | ok m1 =>
              rw [hcb] at h
              simp at h
        · simp only [h1, h2, ne_eq, not_true_eq_false, if_false, if_pos h3] at h
          simp at h
          subst h
          exact .inr (.inr (.inr (.inl rfl)))
      · simp only [h1, ne_eq, not_true_eq_false, if_false, if_pos h2] at h
        simp at h
        subst h
        exact .inr (.inr (.inl rfl))
    · simp only [ne_eq, if_pos h1] at h
      simp at h
      subst h
      exact .inr (.inl rfl)

/-- C4: for `d ≤ 256`, a block the miner accepts (hash strictly below the
target `hash_max >> d`) has at least `d` leading zero bits, so `add_block`
on a chain with difficulty `d` never rejects it with `InvalidDifficulty`. -/
theorem spec_c4_mined_block_meets_difficulty (m : Miner) (H : Block → Nat)
    (ts : Nat → Int) (last : Block) (txs : TransactionVec) (b : Block) (d : Nat)
    (hd : d ≤ 256) (htar : m.target = Miner.create_target d)
    (hm : m.mine_block H ts last txs = some b) :
    d ≤ leading_zeros b.hash ∧
      ∀ c : Blockchain, c.difficulty = d →
        (Blockchain.add_block H c b).1 ≠ some (.chain .invalidDifficulty) := by
  obtain ⟨k, _, _, _, hk4, _⟩ := mineAux_eq_some hm
  have hlt : b.hash < 2 ^ (256 - d) := by
    rw [htar, create_target_eq hd] at hk4
    omega
  have hlz : d ≤ leading_zeros b.hash := le_leading_zeros hd hlt
  refine ⟨hlz, ?_⟩
  intro c hc heq
  rcases add_block_error_mem heq with ⟨hcon, _⟩ | hcon | hcon | hcon |
    ⟨_, hcon⟩ | hcon | hcon | ⟨e2, hcon⟩
  · simp at hcon
  · simp at hcon
  · simp at hcon
  · simp at hcon
  · omega
  · simp at hcon
  · simp at hcon
  · simp at hcon

/-- Witness for C4 at difficulty 0: the single-nonce miner finds `blk1`,
which `chain0` does not reject with `InvalidDifficulty`. -/
theorem spec_c4_mined_block_meets_difficulty_witness :
    0 ≤ leading_zeros blk1.hash ∧
      (Blockchain.add_block Hzero chain0 blk1).1 ≠ some (.chain .invalidDifficulty) := by
  have h := spec_c4_mined_block_meets_difficulty minerW Hzero tsZero
    (Blockchain.create_genesis_block Hzero) [] blk1 0 (by omega) rfl (by decide)
  exact ⟨h.1, h.2 chain0 rfl⟩

/-! ### The reachable-chain invariant (C1, C10) -/

theorem add_block_ok_spec {H : Block → Nat} {c : Blockchain} {b : Block} {c' : Blockchain}
    (h : Blockchain.add_block H c b = (none, c')) :
    ∃ last, Blockchain.last_block c = some last ∧ ext_ok H c.difficulty last b ∧
      c'.blocks = c.blocks ++ [b] ∧ c'.difficulty = c.difficulty ∧
      c.blocks ≠ [] := by
  unfold Blockchain.add_block at h
  cases hlb : Blockchain.last_block c with
  | none =>
    rw [hlb] at h
    simp at h
  | some last =>
    rw [hlb] at h
    have hne : c.blocks ≠ [] := by
      intro hcon
      unfold Blockchain.last_block at hlb
      rw [hcon] at hlb
      simp at hlb
    by_cases h1 : b.index = last.index + 1
    · by_cases h2 : b.previous_hash = last.hash
      · by_cases h3 : b.hash = Block.calculate_hash H b
        · by_cases h4 : leading_zeros b.hash < c.difficulty
          · have h4c : leading_zeros (Block.calculate_hash H b) < c.difficulty := by
              rw [← h3]; exact h4
            simp only [h1, h2, h3, ne_eq, not_true_eq_false, if_false, h4c, if_true] at h
            simp at h
          · have h4c : ¬ leading_zeros (Block.calculate_hash H b) < c.difficulty := by
              rw [← h3]; exact h4
            simp only [h1, h2, h3, ne_eq, not_true_eq_false, if_false, h4c] at h
            unfold Blockchain.udpate_account_balance at h
            cases hcb : Blockchain.calculate_new_account_balance
                c.account_balances b.transactions with
            | error e1 =>
              rw [hcb] at h
              simp at h
            | ok m1 =>
              rw [hcb] at h
              injection h with hf hs
              subst hs
              exact ⟨last, rfl, ⟨h1, h2, h3, by omega⟩, rfl, rfl, hne⟩
        · simp only [h1, h2, ne_eq, not_true_eq_false, if_false, if_pos h3] at h
          simp at h
      · simp only [h1, ne_eq, not_true_eq_false, if_false, if_pos h2] at h
        simp at h
    · simp only [ne_eq, if_pos h1] at h
      simp at h

theorem getElem?_last_cons (g : Block) (rest : List Block) :
    (g :: rest)[(g :: rest).length - 1]? = some (rest.getLastD g) := by
  induction rest generalizing g with
  | nil => rfl
  | cons b bs ih =>
    have h1 : (g :: b :: bs).length - 1 = (b :: bs).length := by simp
    rw [h1]
    have h2 : (b :: bs).length = ((b :: bs).length - 1) + 1 := by simp
    rw [h2, List.getElem?_cons_succ, List.getLastD_cons]
    exact ih b

theorem last_block_eq {c : Blockchain} {g : Block} {rest : List Block}
    (hb : c.blocks = g :: rest) :
    Blockchain.last_block c = some (rest.getLastD g) := by
  unfold Blockchain.last_block
  rw [hb]
  exact getElem?_last_cons g rest

theorem chain_ok_from_append {H : Block → Nat} {d : Nat} {b : Block} :
    ∀ {p : Block} {bs : List Block}, chain_ok_from H d p bs →
      ext_ok H d (bs.getLastD p) b → chain_ok_from H d p (bs ++ [b])
  | p, [], _, h2 => ⟨h2, trivial⟩
  | p, b0 :: bs, ⟨he, hc⟩, h2 => by
    refine ⟨he, chain_ok_from_append hc ?_⟩
    rw [List.getLastD_cons] at h2
    exact h2

theorem reachable_chain_inv {H : Block → Nat} {d : Nat} {c : Blockchain}
    (h : Reachable H d c) : chain_inv H d c := by
  induction h with
  | base => exact ⟨rfl, [], rfl, trivial⟩
  | @step c0 c1 b0 hr hok ih =>
    obtain ⟨hd, rest, hb, hco⟩ := ih
    obtain ⟨last, hlast, hext, hb', hd', _⟩ := add_block_ok_spec hok
    refine ⟨by rw [hd', hd], rest ++ [b0], by rw [hb', hb]; rfl, ?_⟩
    apply chain_ok_from_append hco
    rw [last_block_eq hb] at hlast
    injection hlast with hl
    rw [hl]
    rw [hd] at hext
    exact hext

theorem chain_ok_from_index {H : Block → Nat} {d : Nat} :
    ∀ {p : Block} {bs : List Block}, chain_ok_from H d p bs →
      ∀ i, (hi : i < bs.length) → (bs.get ⟨i, hi⟩).index = p.index + i + 1 := by
  intro p bs h
  induction bs generalizing p with
  | nil =>
    intro i hi
    simp at hi
  | cons b0 bs ih =>
    intro i hi
    obtain ⟨he, hc⟩ := h
    cases i with
    | zero => simpa using he.1
    | succ j =>
      have hj : j < bs.length := by simpa using hi
      have h2 := ih hc j hj
      have h0 : b0.index = p.index + 1 := he.1
      show (bs.get ⟨j, hj⟩).index = p.index + (j + 1) + 1
      omega

theorem chain_ok_from_adj {H : Block → Nat} {d : Nat} :
    ∀ {p : Block} {bs : List Block}, chain_ok_from H d p bs →
      ∀ i, (hi : i < bs.length) →
        ext_ok H d ((p :: bs).get ⟨i, by simp; omega⟩) (bs.get ⟨i, hi⟩) := by
  intro p bs h
  induction bs generalizing p with
  | nil =>
    intro i hi
    simp at hi
  | cons b0 bs ih =>
    intro i hi
    obtain ⟨he, hc⟩ := h
    cases i with
    | zero => exact he
    | succ j =>
      have hj : j < bs.length := by simpa using hi
      exact ih hc j hj

/-- C1: after any finite sequence of successful `add_block` calls on a
chain built by `Blockchain::new(difficulty)`, block 0 is the genesis block
(index 0) and every later block `i` has index `i`, `previous_hash` equal
to its predecessor's hash, a hash equal to the recomputation over the
block with its hash field zeroed, and at least `difficulty` leading zero
bits. -/
theorem spec_c1_chain_invariant (H : Block → Nat) (d : Nat) (c : Blockchain)
    (h : Reachable H d c) :
    c.blocks.head? = some (Blockchain.create_genesis_block H) ∧
    (Blockchain.create_genesis_block H).index = 0 ∧
    ∀ i, (hi : i < c.blocks.length) → 0 < i →
      (c.blocks.get ⟨i, hi⟩).index = i ∧
      (c.blocks.get ⟨i, hi⟩).previous_hash
        = (c.blocks.get ⟨i - 1, by omega⟩).hash ∧
      (c.blocks.get ⟨i, hi⟩).hash
        = Block.calculate_hash H (c.blocks.get ⟨i, hi⟩) ∧
      d ≤ leading_zeros (c.blocks.get ⟨i, hi⟩).hash := by
  obtain ⟨hd, rest, hb, hco⟩ := reachable_chain_inv h
  obtain ⟨cd, cb, cab⟩ := c
  simp only at hb hco ⊢
  subst hb
  refine ⟨rfl, rfl, ?_⟩
  intro i hi hpos
  obtain ⟨j, rfl⟩ : ∃ j, i = j + 1 := ⟨i - 1, by omega⟩
  have hj : j < rest.length := by simpa using hi
  have hidx := chain_ok_from_index hco j hj
  have hadj := chain_ok_from_adj hco j hj
  obtain ⟨ha1, ha2, ha3, ha4⟩ := hadj
  refine ⟨?_, ?_, ?_, ?_⟩
  · show (rest.get ⟨j, hj⟩).index = j + 1
    have hg : (Blockchain.create_genesis_block H).index = 0 := rfl
    omega
  · show (rest.get ⟨j, hj⟩).previous_hash
      = ((Blockchain.create_genesis_block H :: rest).get ⟨j + 1 - 1, by simp; omega⟩).hash
    exact ha2
  · exact ha3
  · exact ha4

/-- Witness for C1: the two-block chain `chain1`, reached by one
successful `add_block` from `Blockchain::new(0)`, checked at `i = 1`. -/
theorem spec_c1_chain_invariant_witness :
    chain1.blocks.head? = some (Blockchain.create_genesis_block Hzero) ∧
    (chain1.blocks.get ⟨1, by decide⟩).index = 1 ∧
    (chain1.blocks.get ⟨1, by decide⟩).previous_hash
      = (chain1.blocks.get ⟨0, by decide⟩).hash ∧
    (chain1.blocks.get ⟨1, by decide⟩).hash
      = Block.calculate_hash Hzero (chain1.blocks.get ⟨1, by decide⟩) ∧
    0 ≤ leading_zeros (chain1.blocks.get ⟨1, by decide⟩).hash := by
  have hab : Blockchain.add_block Hzero (Blockchain.new Hzero 0) blk1 = (none, chain1) := by
    decide
  have h := spec_c1_chain_invariant Hzero 0 chain1
    (Reachable.step Reachable.base hab)
  have h3 := h.2.2 1 (by decide) (by decide)
  exact ⟨h.1, h3.1, h3.2.1, h3.2.2.1, h3.2.2.2⟩

/-- C10: every reachable chain state is non-empty (the genesis is there
and `add_block` only appends), so the `blocks[blocks.len() - 1]` read of
`get_last_block` and `add_block` is always in bounds — the out-of-bounds
panic is unreachable. -/
theorem spec_c10_tip_always_in_bounds (H : Block → Nat) (d : Nat) (c : Blockchain)
    (h : Reachable H d c) :
    c.blocks ≠ [] ∧ (Blockchain.get_last_block c).isSome ∧
      ∀ b, (Blockchain.add_block H c b).1 ≠ some .indexOutOfBounds := by
  obtain ⟨hd, rest, hb, hco⟩ := reachable_chain_inv h
  have hlast := last_block_eq hb
  refine ⟨by rw [hb]; simp, ?_, ?_⟩
  · unfold Blockchain.get_last_block
    rw [hlast]
    rfl
  · intro b hcon
    rcases add_block_error_mem hcon with ⟨_, hnone⟩ | h' | h' | h' |
      ⟨h', _⟩ | h' | h' | ⟨e2, h'⟩
    · rw [hlast] at hnone
      cases hnone
    all_goals simp at h'

/-- Witness for C10: the reachable two-block chain `chain1`. -/
theorem spec_c10_tip_always_in_bounds_witness :
    chain1.blocks ≠ [] ∧ (Blockchain.get_last_block chain1).isSome ∧
      (Blockchain.add_block Hzero chain1 blk2).1 ≠ some .indexOutOfBounds := by
  have hab : Blockchain.add_block Hzero (Blockchain.new Hzero 0) blk1 = (none, chain1) := by
    decide
  have h := spec_c10_tip_always_in_bounds Hzero 0 chain1
    (Reachable.step Reachable.base hab)
  exact ⟨h.1, h.2.1, h.2.2 blk2⟩

/-! ### Peer pull (C7) -/

theorem getLast?_cons_getLastD (g : Block) (rest : List Block) :
    (g :: rest).getLast? = some (rest.getLastD g) := by
  induction rest generalizing g with
  | nil => rfl
  | cons b bs ih =>
    rw [List.getLast?_cons_cons, List.getLastD_cons]
    exact ih b

theorem add_new_blocks_stops (H : Block → Nat) (bad : Block) (good : List Block) :
    ∀ (c0 c1 : Blockchain) (rest2 : List Block),
      Peer.add_seq H c0 good = some c1 →
      ((Blockchain.add_block H c1 bad).1).isSome →
      Peer.add_new_blocks H c0 (good ++ bad :: rest2) = c1 := by
  induction good with
  | nil =>
    intro c0 c1 rest2 hseq hsome
    simp only [Peer.add_seq] at hseq
    injection hseq with h
    subst h
    simp only [List.nil_append, Peer.add_new_blocks]
    rcases hab : Blockchain.add_block H c0 bad with ⟨fst, snd⟩
    rw [hab] at hsome
    cases fst with
    | none => simp at hsome
    | some e =>
      have h2 : snd = c0 := by
        rcases add_block_cases H c0 bad with h2 | h2
        · rw [hab] at h2
          exact h2
        · rw [hab] at h2
          simp at h2
      exact h2
  | cons g good ih =>
    intro c0 c1 rest2 hseq hsome
    simp only [Peer.add_seq] at hseq
    rcases hab : Blockchain.add_block H c0 g with ⟨fst, snd⟩
    rw [hab] at hseq
    cases fst with
    | some e => simp at hseq
    | none =>
      simp only [List.cons_append, Peer.add_new_blocks]
      rw [hab]
      exact ih snd c1 rest2 hseq hsome

theorem add_new_blocks_all_ok (H : Block → Nat) (nbs : List Block) :
    ∀ (c0 c1 : Blockchain), Peer.add_seq H c0 nbs = some c1 →
      Peer.add_new_blocks H c0 nbs = c1 := by
  induction nbs with
  | nil =>
    intro c0 c1 h
    injection h with h
    try subst h
    try rfl
  | cons g nbs ih =>
    intro c0 c1 hseq
    simp only [Peer.add_seq] at hseq
    rcases hab : Blockchain.add_block H c0 g with ⟨fst, snd⟩
    rw [hab] at hseq
    cases fst with
    | some e => simp at hseq
    | none =>
      simp only [Peer.add_new_blocks]
      rw [hab]
      exact ih snd c1 hseq

/-- C7: with local tip index `L` and a well-formed peer list whose last
index is `P`: if `P ≤ L` the pull appends nothing; otherwise exactly the
peer's blocks at indices `L+1 .. P` are submitted, one at a time in
ascending index order, and a rejection stops the batch — the already
appended prefix stays committed, later blocks are not attempted. -/
theorem spec_c7_peer_pull (H : Block → Nat) (c : Blockchain) (pbs : List Block)
    (local_last plast : Block)
    (hlb : Blockchain.get_last_block c = some local_last)
    (hpl : pbs.getLast? = some plast)
    (hwf : ∀ i, (hi : i < pbs.length) → (pbs.get ⟨i, hi⟩).index = i) :
    (plast.index ≤ local_last.index →
       Peer.get_new_blocks_from_peer local_last.index pbs = some [] ∧
       Peer.sync_pull H c pbs = c) ∧
    (local_last.index < plast.index →
       Peer.get_new_blocks_from_peer local_last.index pbs
         = some ((pbs.drop (local_last.index + 1)).take
             (plast.index - local_last.index)) ∧
       ((pbs.drop (local_last.index + 1)).take
           (plast.index - local_last.index)).length
         = plast.index - local_last.index ∧
       (∀ j, j < plast.index - local_last.index →
         ((pbs.drop (local_last.index + 1)).take
             (plast.index - local_last.index))[j]?
           = pbs[local_last.index + 1 + j]? ∧
         ∃ bj, pbs[local_last.index + 1 + j]? = some bj ∧
           bj.index = local_last.index + 1 + j) ∧
       Peer.sync_pull H c pbs
         = Peer.add_new_blocks H c
             ((pbs.drop (local_last.index + 1)).take
               (plast.index - local_last.index))) ∧
    (∀ (c0 : Blockchain) (good : List Block) (bad : Block) (rest2 : List Block)
       (c1 : Blockchain),
       Peer.add_seq H c0 good = some c1 →
       ((Blockchain.add_block H c1 bad).1).isSome →
       Peer.add_new_blocks H c0 (good ++ bad :: rest2) = c1) ∧
    (∀ (c0 : Blockchain) (nbs : List Block) (c1 : Blockchain),
       Peer.add_seq H c0 nbs = some c1 → Peer.add_new_blocks H c0 nbs = c1) := by
  obtain ⟨g, rest, rfl⟩ : ∃ g rest, pbs = g :: rest := by
    cases pbs with
    | nil => simp at hpl
    | cons g rest => exact ⟨g, rest, rfl⟩
  have hlen0 : 0 < (g :: rest).length := by simp
  have hplast_get : (g :: rest).get ⟨(g :: rest).length - 1, by omega⟩ = plast := by
    rw [getLast?_cons_getLastD] at hpl
    injection hpl with h
    have h2 := getElem?_last_cons g rest
    rw [List.getElem?_eq_getElem (by omega : (g :: rest).length - 1 < (g :: rest).length)]
      at h2
    injection h2 with h2
    rw [← h, ← h2]
    rfl
  have hP : plast.index = (g :: rest).length - 1 := by
    rw [← hplast_get]
    exact hwf ((g :: rest).length - 1) (by omega)
  refine ⟨?_, ?_, ?_, ?_⟩
  · intro hle
    have hget : Peer.get_new_blocks_from_peer local_last.index (g :: rest) = some [] := by
      simp [Peer.get_new_blocks_from_peer, hpl, hle]
    refine ⟨hget, ?_⟩
    simp [Peer.sync_pull, hlb, hget]
  · intro hgt
    have hlt : plast.index < (g :: rest).length := by omega
    have hlt2 : plast.index < rest.length + 1 := by
      rw [List.length_cons] at hlt
      exact hlt
    have hn : ¬ plast.index ≤ local_last.index := by omega
    have hget : Peer.get_new_blocks_from_peer local_last.index (g :: rest)
        = some (((g :: rest).drop (local_last.index + 1)).take
            (plast.index - local_last.index)) := by
      simp [Peer.get_new_blocks_from_peer, hpl, hn, hlt2]
    refine ⟨hget, ?_, ?_, ?_⟩
    · simp only [List.length_take, List.length_drop]
      omega
    · intro j hj
      have hjlen : local_last.index + 1 + j < (g :: rest).length := by omega
      constructor
      · rw [List.getElem?_take_of_lt hj, List.getElem?_drop]
      · refine ⟨(g :: rest).get ⟨local_last.index + 1 + j, hjlen⟩, ?_, ?_⟩
        · rw [List.getElem?_eq_getElem hjlen]
          rfl
        · exact hwf _ hjlen
    · cases hsl : ((g :: rest).drop (local_last.index + 1)).take
          (plast.index - local_last.index) with
      | nil =>
        rw [List.drop_succ_cons] at hsl
        simp [Peer.sync_pull, hlb, hget, hsl, Peer.add_new_blocks]
      | cons s ss =>
        rw [List.drop_succ_cons] at hsl
        simp [Peer.sync_pull, hlb, hget, hsl]
  · intro c0 good bad rest2 c1 hseq hsome
    exact add_new_blocks_stops H bad good c0 c1 rest2 hseq hsome
  · intro c0 nbs c1 h
    exact add_new_blocks_all_ok H nbs c0 c1 h

/-- Witness for C7: an up-to-date peer (nothing pulled); a peer three
blocks long against a fresh local chain (blocks 1 and 2 extracted and
submitted in order); a batch whose middle block is rejected (the first
block stays committed, the third is never attempted); a fully valid
batch. -/
theorem spec_c7_peer_pull_witness :
    (Peer.get_new_blocks_from_peer
        (Blockchain.create_genesis_block Hzero).index
        [Blockchain.create_genesis_block Hzero] = some [] ∧
      Peer.sync_pull Hzero chain0 [Blockchain.create_genesis_block Hzero] = chain0) ∧
    Peer.sync_pull Hzero chain0 [Blockchain.create_genesis_block Hzero, blk1, blk2]
      = Peer.add_new_blocks Hzero chain0
          (([Blockchain.create_genesis_block Hzero, blk1, blk2].drop 1).take 2) ∧
    Peer.add_new_blocks Hzero chain0 ([blk1] ++ blkBad2 :: [blk2]) = chain1 ∧
    Peer.add_new_blocks Hzero chain0 [blk1, blk2] = chain2 := by
  have h1 := spec_c7_peer_pull Hzero chain0 [Blockchain.create_genesis_block Hzero]
    (Blockchain.create_genesis_block Hzero) (Blockchain.create_genesis_block Hzero)
    (by decide) (by decide) (by decide)
  have h2 := spec_c7_peer_pull Hzero chain0
    [Blockchain.create_genesis_block Hzero, blk1, blk2]
    (Blockchain.create_genesis_block Hzero) blk2
    (by decide) (by decide) (by decide)
  refine ⟨h1.1 (by decide), ?_, ?_, ?_⟩
  · exact (h2.2.1 (by decide)).2.2.2
  · exact h2.2.2.1 chain0 [blk1] blkBad2 [blk2] chain1 (by decide) (by decide)
  · exact h2.2.2.2 chain0 [blk1, blk2] chain2 (by decide)

end RustBlockchain
